import Mathlib

namespace SentimentCore

/-!
Verification of the sentiment-analysis repository core (discovery scoring,
deduplicating ingestion, analysis-progress tracking, semantic search and QA)
against its natural-language specification.

The backend service code (FastAPI app under api/) is not part of the source
tree available here; only its README, environment template and the React
frontend are.  Components whose code is missing are therefore modelled from
the spec (their definitions say so in their doc comments); the frontend
computations (product-list parsing, daily time-series percentages) are
embedded directly from the TypeScript source.
-/

/-! ## Data model: Comment Records and the Comment Store -/

/-- A stored comment.  Fields follow the spec's Comment Record and the
columns of the `main_reddit` table described in the API README. -/
structure CommentRecord where
  source_platform : String
  native_comment_id : String
  product_name : String
  brand_name : Option String
  text : String
  timestamp : Nat
  upvotes : Int
  thread_id : String
  thread_title : String
  sentiment_label : Option String
  attribute_discussed : Option String
  attribute_sentiment : Option String
deriving Repr, DecidableEq

/-- The dedup key of a comment: `(source_platform, native_comment_id)`. -/
def dedupKey (r : CommentRecord) : String × String :=
  (r.source_platform, r.native_comment_id)

/-- The dedup invariant: all pairs of records in the store have
different dedup keys. -/
def DedupInvariant (store : List CommentRecord) : Prop :=
  store.Pairwise (fun a b => dedupKey a ≠ dedupKey b)

instance (store : List CommentRecord) : Decidable (DedupInvariant store) :=
  List.instDecidablePairwise store

/-- Whether a key is already present in the store. -/
def keyMem (store : List CommentRecord) (k : String × String) : Bool :=
  store.any (fun r => decide (dedupKey r = k))

/-! ## Ingestion pipeline

Modelled from the spec: the ingestion service itself (api/app/services/
ingestion_service.py) is not in the available sources, so the pipeline is
modelled from §4.2 of the spec: per selected channel fetch up to
`MAX_SUBMISSIONS_PER_PRODUCT` submissions, per submission up to
`MAX_COMMENTS_PER_SUBMISSION` comments; before writing, check the dedup key
against the store — an existing key is skipped, a validation failure counts
as failed, a successful write appends the record and counts as ingested. -/

/-- The running state of one ingestion call: the comment store plus the
outcome counters accumulated so far. -/
structure IngestState where
  store : List CommentRecord
  comments_ingested : Nat
  comments_failed : Nat
deriving Repr, DecidableEq

/-- Modelled from the spec: processing of a single fetched comment.
An existing dedup key is skipped (not an error, not counted as failed);
a record failing validation increments `comments_failed`; otherwise the
record is appended to the store and counted as ingested. -/
def ingestOne (valid : CommentRecord → Bool) (st : IngestState)
    (c : CommentRecord) : IngestState :=
  if keyMem st.store (dedupKey c) then st
  else if valid c then
    ⟨st.store ++ [c], st.comments_ingested + 1, st.comments_failed⟩
  else
    ⟨st.store, st.comments_ingested, st.comments_failed + 1⟩

/-- Sequential ingestion of a list of fetched comments. -/
def ingestList (valid : CommentRecord → Bool) (st : IngestState)
    (cs : List CommentRecord) : IngestState :=
  cs.foldl (ingestOne valid) st

/-- The configuration options recognized by the service (values in
api's env.example; each bounds a loop of the pipeline). -/
structure Config where
  max_comments_per_submission : Nat
  max_submissions_per_product : Nat
  max_discovery_results : Nat
  top_subreddits_limit : Nat
  analysis_limit : Nat
deriving Repr, DecidableEq

/-- A submission (thread) as returned by the Source Client, with the raw
comment list the source holds for it. -/
structure Submission where
  thread_id : String
  comments : List CommentRecord
deriving Repr, DecidableEq

/-- A channel (subreddit) with the submissions the source would return,
newest first. -/
structure Channel where
  channel_id : String
  submissions : List Submission
deriving Repr, DecidableEq

/-- Modelled from the spec: fetch up to `MAX_SUBMISSIONS_PER_PRODUCT`
submissions for a channel. -/
def fetchSubmissions (cfg : Config) (ch : Channel) : List Submission :=
  ch.submissions.take cfg.max_submissions_per_product

/-- Modelled from the spec: fetch up to `MAX_COMMENTS_PER_SUBMISSION`
comments of one submission. -/
def submissionComments (cfg : Config) (sub : Submission) : List CommentRecord :=
  sub.comments.take cfg.max_comments_per_submission

/-- Ingest the (capped) comments of one submission. -/
def ingestSubmission (cfg : Config) (valid : CommentRecord → Bool)
    (st : IngestState) (sub : Submission) : IngestState :=
  ingestList valid st (submissionComments cfg sub)

/-- Ingest the (capped) submissions of one channel. -/
def ingestChannel (cfg : Config) (valid : CommentRecord → Bool)
    (st : IngestState) (ch : Channel) : IngestState :=
  (fetchSubmissions cfg ch).foldl (ingestSubmission cfg valid) st

/-- Modelled from the spec: one `ingest` call over the selected channels,
starting from the given store with fresh outcome counters. -/
def ingestCall (cfg : Config) (valid : CommentRecord → Bool)
    (channels : List Channel) (store : List CommentRecord) : IngestState :=
  channels.foldl (ingestChannel cfg valid) ⟨store, 0, 0⟩

/-- The flat sequence of comments one ingest call processes, in order. -/
def plannedComments (cfg : Config) (channels : List Channel) :
    List CommentRecord :=
  channels.flatMap fun ch =>
    (fetchSubmissions cfg ch).flatMap fun sub => submissionComments cfg sub

/-! ## Labeling steps and store reachability -/

/-- One external-labeling mutation: it sets the `sentiment_label` of one
record from `null` to a value and changes nothing else. -/
def LabelStep (s s' : List CommentRecord) : Prop :=
  ∃ pre c lab post, s = pre ++ c :: post ∧ c.sentiment_label = none ∧
    s' = pre ++ { c with sentiment_label := some lab } :: post

/-- One store mutation: an ingest call or an external labeling step. -/
def StoreStep (s s' : List CommentRecord) : Prop :=
  (∃ cfg valid channels, s' = (ingestCall cfg valid channels s).store)
    ∨ LabelStep s s'

/-- A store state reachable from the empty store by the system's operations. -/
def ReachableStore (s : List CommentRecord) : Prop :=
  Relation.ReflTransGen StoreStep [] s

/-- A sample comment used by concrete witnesses. -/
def sampleComment : CommentRecord :=
  ⟨"reddit", "c1", "iPhone", some "Apple", "great battery", 100, 3,
    "t1", "iPhone thread", none, none, none⟩

/-- A sample configuration with the default limits of the env template. -/
def sampleConfig : Config := ⟨50, 20, 20, 2, 100⟩

/-- A sample channel whose source holds one submission with one comment. -/
def sampleChannel : Channel := ⟨"r/apple", [⟨"t1", [sampleComment]⟩]⟩

/-! ## Sentiment Progress Tracker -/

/-- Whether a sentiment label counts as set: non-null and non-empty. -/
def analyzedLabel (l : Option String) : Bool :=
  match l with
  | none => false
  | some s => decide (s ≠ "")

/-- The progress snapshot; field names follow the AnalysisProgress
interface of the frontend (ProductDiscovery.tsx). -/
structure AnalysisProgress where
  total_comments : Nat
  analyzed_comments : Nat
  unanalyzed_comments : Nat
deriving Repr, DecidableEq

/-- Modelled from the spec: `analysisProgress()` recomputes the snapshot
from the Comment Store on demand: total is the record count, analyzed the
count of records with a set label, unanalyzed the difference. -/
def analysisProgress (store : List CommentRecord) : AnalysisProgress :=
  let total := store.length
  let analyzed :=
    (store.filter (fun r => analyzedLabel r.sentiment_label)).length
  ⟨total, analyzed, total - analyzed⟩

/-- The sample comment with its sentiment label filled in. -/
def labeledSample : CommentRecord :=
  { sampleComment with sentiment_label := some "positive" }

/-- A store of 100 comments of which 40 carry a sentiment label. -/
def exampleStore : List CommentRecord :=
  List.replicate 40 labeledSample ++ List.replicate 60 sampleComment

/-! ## Discovery Scorer

Modelled from the spec: the discovery service (api/app/services/
discovery_service.py) is not in the available sources; scoring is modelled
from §4.1 of the spec: three engagement signals, each min-max normalized to
[0,1] across the candidate set (an all-equal signal contributes 0), a
fixed-weight linear combination, ordering by descending score with ties
broken by higher raw comment count and then lexicographic channel id, and
truncation to `MAX_DISCOVERY_RESULTS`. -/

/-- The engagement metrics of a channel candidate (the frontend's
DiscoverResponse metrics object). -/
structure ChannelMetrics where
  mentions : Nat
  avg_score : ℚ
  comment_count : Nat
deriving Repr, DecidableEq

/-- A candidate channel for a product, before scoring. -/
structure Candidate where
  platform : String
  channel_id : String
  display_name : String
  metrics : ChannelMetrics
deriving Repr, DecidableEq

/-- The immutable scoring-weight configuration of the Discovery Scorer. -/
structure ScoringWeights where
  w_mentions : ℚ
  w_avg_score : ℚ
  w_comments : ℚ
deriving Repr, DecidableEq

/-- Minimum of a list of rationals (0 on the empty list, which scoring
never queries). -/
def listMin : List ℚ → ℚ
  | [] => 0
  | x :: xs => xs.foldl min x

/-- Maximum of a list of rationals (0 on the empty list). -/
def listMax : List ℚ → ℚ
  | [] => 0
  | x :: xs => xs.foldl max x

/-- Modelled from the spec: min-max normalization that contributes 0 when
all values of the signal are equal, instead of dividing by zero. -/
def minMaxNorm (v lo hi : ℚ) : ℚ :=
  if hi = lo then 0 else (v - lo) / (hi - lo)

/-- A signal of one candidate, normalized across the candidate set. -/
def normSignal (f : Candidate → ℚ) (cands : List Candidate) (c : Candidate) : ℚ :=
  minMaxNorm (f c) (listMin (cands.map f)) (listMax (cands.map f))

/-- Signal 1: mention count. -/
def mentionsSignal (c : Candidate) : ℚ := c.metrics.mentions

/-- Signal 2: average post/comment score. -/
def avgScoreSignal (c : Candidate) : ℚ := c.metrics.avg_score

/-- Signal 3: comment volume. -/
def commentsSignal (c : Candidate) : ℚ := c.metrics.comment_count

/-- Modelled from the spec: the fixed-weight linear combination of the
three normalized signals. -/
def candidateScore (w : ScoringWeights) (cands : List Candidate)
    (c : Candidate) : ℚ :=
  w.w_mentions * normSignal mentionsSignal cands c
    + w.w_avg_score * normSignal avgScoreSignal cands c
    + w.w_comments * normSignal commentsSignal cands c

/-- A candidate together with its computed score (the frontend's
DiscoverResponse shape). -/
structure ScoredCandidate where
  platform : String
  channel_id : String
  display_name : String
  metrics : ChannelMetrics
  score : ℚ
deriving Repr, DecidableEq

/-- Score every candidate of the set. -/
def scoreCandidates (w : ScoringWeights) (cands : List Candidate) :
    List ScoredCandidate :=
  cands.map fun c =>
    ⟨c.platform, c.channel_id, c.display_name, c.metrics,
      candidateScore w cands c⟩

/-- The ordering key: descending score, ties broken by higher raw comment
count, then lexicographic channel id. -/
def rankKey (c : ScoredCandidate) : ℚ ×ₗ ℚ ×ₗ List Char :=
  toLex (-c.score, toLex (-(c.metrics.comment_count : ℚ), c.channel_id.data))

/-- Boolean comparator on the ordering key. -/
def candLE (a b : ScoredCandidate) : Bool := decide (rankKey a ≤ rankKey b)

/-- Rank the scored candidates by descending score with the tie-breaks. -/
def rankCandidates (l : List ScoredCandidate) : List ScoredCandidate :=
  l.mergeSort candLE

/-- Modelled from the spec: one platform's `discover` result — the ranked
candidate list truncated to `MAX_DISCOVERY_RESULTS`. -/
def discover (cfg : Config) (w : ScoringWeights) (cands : List Candidate) :
    List ScoredCandidate :=
  (rankCandidates (scoreCandidates w cands)).take cfg.max_discovery_results

/-- A sample candidate channel. -/
def candA : Candidate := ⟨"reddit", "r/apple", "Apple", ⟨10, 5, 100⟩⟩

/-- A second sample candidate with identical metrics, a score tie. -/
def candB : Candidate := ⟨"reddit", "r/buildapc", "BuildAPC", ⟨10, 5, 100⟩⟩

/-- Sample scoring weights. -/
def sampleWeights : ScoringWeights := ⟨2, 3, 5⟩

/-- The expected first-ranked scored candidate of the tie-break example. -/
def scoredA : ScoredCandidate := ⟨"reddit", "r/apple", "Apple", ⟨10, 5, 100⟩, 0⟩

/-- The expected second-ranked scored candidate of the tie-break example. -/
def scoredB : ScoredCandidate :=
  ⟨"reddit", "r/buildapc", "BuildAPC", ⟨10, 5, 100⟩, 0⟩

/-! ## Semantic Index and QA Retriever

Modelled from the spec: the QA service is not in the available sources;
search and ask are modelled from §4.4 of the spec.  Cosine similarity over
real embeddings is not expressible in exact arithmetic, so the similarity
measure and the embedding and generation backends are parameters. -/

/-- An entry of the Semantic Index: a comment with its embedding vector. -/
structure IndexEntry where
  comment : CommentRecord
  embedding : List ℚ
deriving Repr, DecidableEq

/-- The search ordering key: descending similarity, ties broken by more
recent timestamp. -/
def searchKey (p : CommentRecord × ℚ) : ℚ ×ₗ ℚ :=
  toLex (-p.2, -(p.1.timestamp : ℚ))

/-- Boolean comparator on the search key. -/
def searchLE (a b : CommentRecord × ℚ) : Bool := decide (searchKey a ≤ searchKey b)

/-- Modelled from the spec: `search` scores every indexed comment against
the embedded query and returns the top `limit` by descending similarity. -/
def searchIndex (sim : List ℚ → List ℚ → ℚ) (embed : String → List ℚ)
    (index : List IndexEntry) (query : String) (limit : Nat) :
    List (CommentRecord × ℚ) :=
  ((index.map fun e => (e.comment, sim (embed query) e.embedding)).mergeSort
    searchLE).take limit

/-- The QA response; field names follow the QAResponse interface of the
frontend (ProductChatbot.tsx / CommentSearch). -/
structure QAResponse where
  answer : String
  relevant_comments : List CommentRecord
  sources : Nat
deriving Repr, DecidableEq

/-- The clear no-data answer returned when nothing is indexed. -/
def noDataAnswer : String :=
  "No comments are indexed yet, so this question cannot be answered from the data."

/-- Modelled from the spec: `ask` retrieves the top `limit` comments and
delegates to the external generation capability `gen`; with no retrieved
context it returns the no-data answer with zero sources and does not
consult `gen`. -/
def ask (sim : List ℚ → List ℚ → ℚ) (embed : String → List ℚ)
    (gen : String → List CommentRecord → String) (index : List IndexEntry)
    (question : String) (limit : Nat) : QAResponse :=
  let results := searchIndex sim embed index question limit
  if results.isEmpty then ⟨noDataAnswer, [], 0⟩
  else
    ⟨gen question (results.map Prod.fst), results.map Prod.fst, results.length⟩

/-! ## Frontend: product-list parsing (ProductDiscovery.tsx)

Embeds the expression
products.split(",").map(p => p.trim()).filter(p => p.length > 0)
used identically by handleDiscover, handleIngest and handleIngestSelected.
Strings are modelled as character lists so the JavaScript single-character
split and trim are structural. -/

/-- JavaScript String.prototype.split with a one-character separator:
splits at every separator occurrence, keeping empty pieces. -/
def splitChars (sep : Char) : List Char → List (List Char)
  | [] => [[]]
  | c :: rest =>
      let r := splitChars sep rest
      if c = sep then [] :: r
      else
        match r with
        | [] => [[c]]
        | h :: t => (c :: h) :: t

/-- JavaScript String.prototype.trim: strip whitespace from both ends. -/
def trimChars (s : List Char) : List Char :=
  (((s.dropWhile Char.isWhitespace).reverse).dropWhile Char.isWhitespace).reverse

/-- The product list sent to /discover and /ingest, from the input text
(ProductDiscovery.tsx lines 338-341 and 383-388). -/
def productListOf (input : List Char) : List (List Char) :=
  ((splitChars ',' input).map trimChars).filter fun p => decide (0 < p.length)

/-! ## Frontend: daily sentiment time series (SentimentDashboard in
ComingSoonSection.tsx, fetchTimeSeriesData) -/

/-- JavaScript Math.round for the non-negative shares at stake: round half
away from zero, i.e. the floor of the value plus one half. -/
def jsRound (q : ℚ) : ℤ := ⌊q + 1 / 2⌋

/-- One point of the daily time series produced by fetchTimeSeriesData. -/
structure DailyPoint where
  date : String
  positive : Nat
  negative : Nat
  neutral : Nat
  positivePercent : ℤ
  negativePercent : ℤ
  neutralPercent : ℤ
deriving Repr, DecidableEq

/-- One date bucket of the time series: the percentage computation of
fetchTimeSeriesData — exact shares of the total, positive and negative
rounded independently, neutral defined as the non-negative part of the
remainder to 100. -/
def timeSeriesPoint (date : String) (pos neg neu : Nat) : DailyPoint :=
  if pos + neg + neu = 0 then ⟨date, 0, 0, 0, 0, 0, 0⟩
  else
    ⟨date, pos, neg, neu,
      jsRound ((pos : ℚ) / ((pos + neg + neu : Nat) : ℚ) * 100),
      jsRound ((neg : ℚ) / ((pos + neg + neu : Nat) : ℚ) * 100),
      max 0 (100 - jsRound ((pos : ℚ) / ((pos + neg + neu : Nat) : ℚ) * 100)
        - jsRound ((neg : ℚ) / ((pos + neg + neu : Nat) : ℚ) * 100))⟩

/-! ## Theorems -/

theorem keyMem_iff (store : List CommentRecord) (k : String × String) :
    keyMem store k = true ↔ ∃ r ∈ store, dedupKey r = k := by
  simp [keyMem]

theorem ingestList_append (valid : CommentRecord → Bool) (st : IngestState)
    (l₁ l₂ : List CommentRecord) :
    ingestList valid st (l₁ ++ l₂) = ingestList valid (ingestList valid st l₁) l₂ :=
  List.foldl_append ..

theorem ingestList_flatMap {α : Type} (valid : CommentRecord → Bool)
    (f : α → List CommentRecord) (l : List α) (st : IngestState) :
    l.foldl (fun acc x => ingestList valid acc (f x)) st
      = ingestList valid st (l.flatMap f) := by
  induction l generalizing st with
  | nil => rfl
  | cons a t ih =>
      simp only [List.foldl_cons, List.flatMap_cons, ingestList_append]
      exact ih (ingestList valid st (f a))

theorem ingestChannel_eq (cfg : Config) (valid : CommentRecord → Bool)
    (st : IngestState) (ch : Channel) :
    ingestChannel cfg valid st ch
      = ingestList valid st
          ((fetchSubmissions cfg ch).flatMap (submissionComments cfg)) := by
  unfold ingestChannel
  rw [← ingestList_flatMap]
  rfl

/-- An ingest call is the sequential ingestion of its planned flat
comment sequence. -/
theorem ingestCall_eq_ingestList (cfg : Config) (valid : CommentRecord → Bool)
    (channels : List Channel) (store : List CommentRecord) :
    ingestCall cfg valid channels store
      = ingestList valid ⟨store, 0, 0⟩ (plannedComments cfg channels) := by
  unfold ingestCall plannedComments
  have hfun : ingestChannel cfg valid
      = fun st ch => ingestList valid st
          ((fetchSubmissions cfg ch).flatMap (submissionComments cfg)) := by
    funext st ch
    exact ingestChannel_eq cfg valid st ch
  rw [hfun]
  exact ingestList_flatMap valid _ channels _

theorem ingestOne_store_mono (valid : CommentRecord → Bool) (st : IngestState)
    (c : CommentRecord) : ∀ x ∈ st.store, x ∈ (ingestOne valid st c).store := by
  intro x hx
  unfold ingestOne
  split
  · exact hx
  · split
    · exact List.mem_append_left _ hx
    · exact hx

theorem ingestList_store_mono (valid : CommentRecord → Bool)
    (cs : List CommentRecord) (st : IngestState) :
    ∀ x ∈ st.store, x ∈ (ingestList valid st cs).store := by
  induction cs generalizing st with
  | nil => intro x hx; exact hx
  | cons a t ih =>
      intro x hx
      exact ih (ingestOne valid st a) x (ingestOne_store_mono valid st a x hx)

theorem ingestOne_dedup (valid : CommentRecord → Bool) (st : IngestState)
    (c : CommentRecord) (h : DedupInvariant st.store) :
    DedupInvariant (ingestOne valid st c).store := by
  unfold ingestOne
  split
  · exact h
  · next hmem =>
      split
      · show DedupInvariant (st.store ++ [c])
        unfold DedupInvariant at h ⊢
        rw [List.pairwise_append]
        refine ⟨h, List.pairwise_singleton _ _, ?_⟩
        intro a ha b hb hk
        rw [List.mem_singleton] at hb
        exact hmem ((keyMem_iff st.store (dedupKey c)).2
          ⟨a, ha, by rw [← hb]; exact hk⟩)
      · exact h

theorem ingestList_dedup (valid : CommentRecord → Bool)
    (cs : List CommentRecord) (st : IngestState) (h : DedupInvariant st.store) :
    DedupInvariant (ingestList valid st cs).store := by
  induction cs generalizing st with
  | nil => exact h
  | cons a t ih => exact ih (ingestOne valid st a) (ingestOne_dedup valid st a h)

/-- Every comment in the processed sequence ends up either with its key in
the final store or rejected by validation. -/
theorem ingestList_key_complete (valid : CommentRecord → Bool)
    (cs : List CommentRecord) (st : IngestState) :
    ∀ c ∈ cs, (∃ r ∈ (ingestList valid st cs).store, dedupKey r = dedupKey c)
      ∨ valid c = false := by
  induction cs generalizing st with
  | nil => intro c hc; cases hc
  | cons a t ih =>
      intro c hc
      rcases List.mem_cons.1 hc with hceq | hct
      · subst hceq
        by_cases hmem : keyMem st.store (dedupKey c) = true
        · rcases (keyMem_iff _ _).1 hmem with ⟨r, hr, hkr⟩
          have hr2 := ingestOne_store_mono valid st c r hr
          exact Or.inl ⟨r, ingestList_store_mono valid t _ r hr2, hkr⟩
        · by_cases hv : valid c = true
          · left
            refine ⟨c, ?_, rfl⟩
            have : c ∈ (ingestOne valid st c).store := by
              unfold ingestOne
              rw [if_neg hmem, if_pos hv]
              exact List.mem_append_right _ (List.mem_singleton_self c)
            exact ingestList_store_mono valid t _ c this
          · exact Or.inr (by simpa using hv)
      · exact ih (ingestOne valid st a) c hct

/-- If every comment of the sequence has its key already in the store or
fails validation, re-ingesting the sequence neither writes anything nor
counts anything ingested. -/
theorem ingestList_no_new (valid : CommentRecord → Bool)
    (cs : List CommentRecord) (st : IngestState)
    (h : ∀ c ∈ cs, (∃ r ∈ st.store, dedupKey r = dedupKey c) ∨ valid c = false) :
    (ingestList valid st cs).store = st.store
      ∧ (ingestList valid st cs).comments_ingested = st.comments_ingested := by
  induction cs generalizing st with
  | nil => exact ⟨rfl, rfl⟩
  | cons a t ih =>
      have ha := h a (List.mem_cons_self a t)
      have hone : (ingestOne valid st a).store = st.store
          ∧ (ingestOne valid st a).comments_ingested = st.comments_ingested := by
        unfold ingestOne
        rcases ha with ⟨r, hr, hkr⟩ | hv
        · rw [if_pos ((keyMem_iff _ _).2 ⟨r, hr, hkr⟩)]
          exact ⟨rfl, rfl⟩
        · split
          · exact ⟨rfl, rfl⟩
          · rw [if_neg (by simp [hv])]
            exact ⟨rfl, rfl⟩
      have ht : ∀ c ∈ t, (∃ r ∈ (ingestOne valid st a).store, dedupKey r = dedupKey c)
          ∨ valid c = false := by
        intro c hc
        rcases h c (List.mem_cons_of_mem a hc) with ⟨r, hr, hkr⟩ | hv
        · exact Or.inl ⟨r, hone.1 ▸ hr, hkr⟩
        · exact Or.inr hv
      have := ih (ingestOne valid st a) ht
      exact ⟨this.1.trans hone.1, this.2.trans hone.2⟩

theorem labelStep_dedup (s s' : List CommentRecord) (h : LabelStep s s')
    (hd : DedupInvariant s) : DedupInvariant s' := by
  rcases h with ⟨pre, c, lab, post, rfl, _, rfl⟩
  unfold DedupInvariant at hd ⊢
  rw [List.pairwise_append, List.pairwise_cons] at hd ⊢
  have hkey : dedupKey { c with sentiment_label := some lab } = dedupKey c := rfl
  refine ⟨hd.1, ⟨?_, hd.2.1.2⟩, ?_⟩
  · intro b hb
    rw [hkey]
    exact hd.2.1.1 b hb
  · intro a ha b hb
    rcases List.mem_cons.1 hb with rfl | hbp
    · rw [hkey]
      exact hd.2.2 a ha c (List.mem_cons_self c post)
    · exact hd.2.2 a ha b (List.mem_cons_of_mem c hbp)

theorem ingestCall_dedup (cfg : Config) (valid : CommentRecord → Bool)
    (channels : List Channel) (store : List CommentRecord)
    (h : DedupInvariant store) :
    DedupInvariant (ingestCall cfg valid channels store).store := by
  rw [ingestCall_eq_ingestList]
  exact ingestList_dedup valid (plannedComments cfg channels) ⟨store, 0, 0⟩ h

theorem reachable_dedup (s : List CommentRecord) (h : ReachableStore s) :
    DedupInvariant s := by
  induction h with
  | refl => exact List.Pairwise.nil
  | tail _ hstep ih =>
      rcases hstep with ⟨cfg, valid, channels, rfl⟩ | hlab
      · exact ingestCall_dedup cfg valid channels _ ih
      · exact labelStep_dedup _ _ hlab ih

/-- C1: Dedup invariant of the Comment Store: every reachable store state has
pairwise distinct `(source_platform, native_comment_id)` keys, and every
operation — every ingest call and every labeling step — preserves this
uniqueness. -/
theorem dedup_invariant_preserved :
    (∀ s : List CommentRecord, ReachableStore s → DedupInvariant s)
    ∧ (∀ (cfg : Config) (valid : CommentRecord → Bool)
        (channels : List Channel) (store : List CommentRecord),
        DedupInvariant store →
        DedupInvariant (ingestCall cfg valid channels store).store)
    ∧ (∀ s s' : List CommentRecord, LabelStep s s' →
        DedupInvariant s → DedupInvariant s') :=
  ⟨reachable_dedup, ingestCall_dedup, fun s s' h hd => labelStep_dedup s s' h hd⟩

theorem dedup_invariant_preserved_witness :
    DedupInvariant
      ((ingestCall sampleConfig (fun _ => true) [sampleChannel] []).store) :=
  dedup_invariant_preserved.1 _
    (Relation.ReflTransGen.single
      (Or.inl ⟨sampleConfig, fun _ => true, [sampleChannel], rfl⟩))

/-- C2: Idempotence of ingest: for every product/channel set, a second
ingest call with identical inputs over an unchanged source counts zero
ingested comments and leaves the store exactly as the first call left it,
so the repeated run creates no duplicate Comment Records. -/
theorem ingest_idempotent (cfg : Config) (valid : CommentRecord → Bool)
    (channels : List Channel) (store : List CommentRecord) :
    (ingestCall cfg valid channels
        (ingestCall cfg valid channels store).store).comments_ingested = 0
    ∧ (ingestCall cfg valid channels
        (ingestCall cfg valid channels store).store).store
      = (ingestCall cfg valid channels store).store := by
  have hplan : ∀ c ∈ plannedComments cfg channels,
      (∃ r ∈ (ingestCall cfg valid channels store).store,
        dedupKey r = dedupKey c) ∨ valid c = false := by
    intro c hc
    have h := ingestList_key_complete valid (plannedComments cfg channels)
      ⟨store, 0, 0⟩ c hc
    rwa [← ingestCall_eq_ingestList] at h
  rw [ingestCall_eq_ingestList cfg valid channels
    (ingestCall cfg valid channels store).store]
  have h2 := ingestList_no_new valid (plannedComments cfg channels)
    ⟨(ingestCall cfg valid channels store).store, 0, 0⟩ hplan
  exact ⟨h2.2, h2.1⟩

/-- C3: analysisProgress returns the count of all records as
total_comments, the count of label-set records as analyzed_comments, and
their difference (never negative) as unanalyzed_comments; on a store of
100 comments with 40 labeled it returns {100, 40, 60}. -/
theorem analysis_progress_correct :
    (∀ store : List CommentRecord,
      (analysisProgress store).total_comments = store.length
      ∧ (analysisProgress store).analyzed_comments
          = (store.filter (fun r => analyzedLabel r.sentiment_label)).length
      ∧ (analysisProgress store).analyzed_comments
          ≤ (analysisProgress store).total_comments
      ∧ (analysisProgress store).unanalyzed_comments
          = (analysisProgress store).total_comments
            - (analysisProgress store).analyzed_comments
      ∧ (analysisProgress store).unanalyzed_comments
          + (analysisProgress store).analyzed_comments
          = (analysisProgress store).total_comments)
    ∧ analysisProgress exampleStore = ⟨100, 40, 60⟩ := by
  constructor
  · intro store
    refine ⟨rfl, rfl, List.length_filter_le _ _, rfl, ?_⟩
    exact Nat.sub_add_cancel (List.length_filter_le _ _)
  · rfl

theorem labelStep_progress (s s' : List CommentRecord) (h : LabelStep s s') :
    (analysisProgress s').total_comments = (analysisProgress s).total_comments
    ∧ (analysisProgress s).analyzed_comments
        ≤ (analysisProgress s').analyzed_comments := by
  rcases h with ⟨pre, c, lab, post, rfl, hnone, rfl⟩
  constructor
  · simp [analysisProgress]
  · simp only [analysisProgress, List.filter_append, List.length_append,
      List.filter_cons, hnone, analyzedLabel]
    by_cases hl : lab = "" <;> simp [hl]

/-- C8: Progress monotonicity: across any sequence of external labeling
steps (each setting a previously-null sentiment_label, nothing deleted)
the total is unchanged and analyzed_comments never decreases. -/
theorem progress_monotone (s s' : List CommentRecord)
    (h : Relation.ReflTransGen LabelStep s s') :
    (analysisProgress s').total_comments = (analysisProgress s).total_comments
    ∧ (analysisProgress s).analyzed_comments
        ≤ (analysisProgress s').analyzed_comments := by
  induction h with
  | refl => exact ⟨rfl, le_refl _⟩
  | tail _ hstep ih =>
      have hs := labelStep_progress _ _ hstep
      exact ⟨hs.1.trans ih.1, le_trans ih.2 hs.2⟩

theorem progress_monotone_witness :
    (analysisProgress [labeledSample]).total_comments
        = (analysisProgress [sampleComment]).total_comments
    ∧ (analysisProgress [sampleComment]).analyzed_comments
        ≤ (analysisProgress [labeledSample]).analyzed_comments :=
  progress_monotone [sampleComment] [labeledSample]
    (Relation.ReflTransGen.single
      ⟨[], sampleComment, "positive", [], rfl, rfl, rfl⟩)

theorem foldl_min_le_init (l : List ℚ) (acc : ℚ) : l.foldl min acc ≤ acc := by
  induction l generalizing acc with
  | nil => exact le_refl acc
  | cons x xs ih => exact le_trans (ih (min acc x)) (min_le_left acc x)

theorem foldl_min_le_mem (l : List ℚ) (acc x : ℚ) (hx : x ∈ l) :
    l.foldl min acc ≤ x := by
  induction l generalizing acc with
  | nil => cases hx
  | cons a t ih =>
      rcases List.mem_cons.1 hx with hxa | hxt
      · subst hxa
        exact le_trans (foldl_min_le_init t (min acc x)) (min_le_right acc x)
      · exact ih (min acc a) hxt

theorem listMin_le_of_mem (l : List ℚ) (x : ℚ) (hx : x ∈ l) : listMin l ≤ x := by
  cases l with
  | nil => cases hx
  | cons a t =>
      rcases List.mem_cons.1 hx with hxa | hxt
      · subst hxa; exact foldl_min_le_init t x
      · exact foldl_min_le_mem t a x hxt

theorem le_foldl_max_init (l : List ℚ) (acc : ℚ) : acc ≤ l.foldl max acc := by
  induction l generalizing acc with
  | nil => exact le_refl acc
  | cons x xs ih => exact le_trans (le_max_left acc x) (ih (max acc x))

theorem le_foldl_max_mem (l : List ℚ) (acc x : ℚ) (hx : x ∈ l) :
    x ≤ l.foldl max acc := by
  induction l generalizing acc with
  | nil => cases hx
  | cons a t ih =>
      rcases List.mem_cons.1 hx with hxa | hxt
      · subst hxa
        exact le_trans (le_max_right acc x) (le_foldl_max_init t (max acc x))
      · exact ih (max acc a) hxt

theorem le_listMax_of_mem (l : List ℚ) (x : ℚ) (hx : x ∈ l) : x ≤ listMax l := by
  cases l with
  | nil => cases hx
  | cons a t =>
      rcases List.mem_cons.1 hx with hxa | hxt
      · subst hxa; exact le_foldl_max_init t x
      · exact le_foldl_max_mem t a x hxt

theorem foldl_min_const (l : List ℚ) (acc v : ℚ) (h : ∀ x ∈ l, x = v)
    (ha : acc = v) : l.foldl min acc = v := by
  induction l generalizing acc with
  | nil => exact ha
  | cons a t ih =>
      have hav : a = v := h a (List.mem_cons_self a t)
      exact ih (min acc a) (fun x hx => h x (List.mem_cons_of_mem a hx))
        (by rw [ha, hav, min_self])

theorem listMin_const (l : List ℚ) (v : ℚ) (hne : l ≠ []) (h : ∀ x ∈ l, x = v) :
    listMin l = v := by
  cases l with
  | nil => exact absurd rfl hne
  | cons a t =>
      exact foldl_min_const t a v (fun x hx => h x (List.mem_cons_of_mem a hx))
        (h a (List.mem_cons_self a t))

theorem foldl_max_const (l : List ℚ) (acc v : ℚ) (h : ∀ x ∈ l, x = v)
    (ha : acc = v) : l.foldl max acc = v := by
  induction l generalizing acc with
  | nil => exact ha
  | cons a t ih =>
      have hav : a = v := h a (List.mem_cons_self a t)
      exact ih (max acc a) (fun x hx => h x (List.mem_cons_of_mem a hx))
        (by rw [ha, hav, max_self])

theorem listMax_const (l : List ℚ) (v : ℚ) (hne : l ≠ []) (h : ∀ x ∈ l, x = v) :
    listMax l = v := by
  cases l with
  | nil => exact absurd rfl hne
  | cons a t =>
      exact foldl_max_const t a v (fun x hx => h x (List.mem_cons_of_mem a hx))
        (h a (List.mem_cons_self a t))

theorem normSignal_bounds (f : Candidate → ℚ) (cands : List Candidate)
    (c : Candidate) (hc : c ∈ cands) :
    0 ≤ normSignal f cands c ∧ normSignal f cands c ≤ 1 := by
  have hmem : f c ∈ cands.map f := List.mem_map_of_mem f hc
  have hlo : listMin (cands.map f) ≤ f c := listMin_le_of_mem _ _ hmem
  have hhi : f c ≤ listMax (cands.map f) := le_listMax_of_mem _ _ hmem
  unfold normSignal minMaxNorm
  by_cases h : listMax (cands.map f) = listMin (cands.map f)
  · rw [if_pos h]
    exact ⟨le_refl 0, zero_le_one⟩
  · rw [if_neg h]
    have hlt : listMin (cands.map f) < listMax (cands.map f) :=
      lt_of_le_of_ne (hlo.trans hhi) (Ne.symm h)
    constructor
    · exact div_nonneg (sub_nonneg.2 hlo) (sub_nonneg.2 hlt.le)
    · rw [div_le_one (sub_pos.2 hlt)]
      linarith

theorem normSignal_const (f : Candidate → ℚ) (cands : List Candidate)
    (c : Candidate) (hc : c ∈ cands) (h : ∀ x ∈ cands, f x = f c) :
    normSignal f cands c = 0 := by
  have hne : cands.map f ≠ [] := by
    cases cands with
    | nil => cases hc
    | cons a t => simp
  have hall : ∀ x ∈ cands.map f, x = f c := by
    intro x hx
    rcases List.mem_map.1 hx with ⟨y, hy, rfl⟩
    exact h y hy
  unfold normSignal
  rw [listMin_const _ _ hne hall, listMax_const _ _ hne hall]
  unfold minMaxNorm
  rw [if_pos rfl]

/-- C7: Discovery score normalization is division-safe: for every candidate
of a set, each of the three signals is min-max normalized into [0,1] across
the set, and a signal whose values are all equal contributes 0 instead of
dividing by zero. -/
theorem normalization_division_safe (cands : List Candidate) (c : Candidate)
    (hc : c ∈ cands) :
    (0 ≤ normSignal mentionsSignal cands c ∧ normSignal mentionsSignal cands c ≤ 1)
    ∧ (0 ≤ normSignal avgScoreSignal cands c ∧ normSignal avgScoreSignal cands c ≤ 1)
    ∧ (0 ≤ normSignal commentsSignal cands c ∧ normSignal commentsSignal cands c ≤ 1)
    ∧ ((∀ x ∈ cands, mentionsSignal x = mentionsSignal c) →
        normSignal mentionsSignal cands c = 0)
    ∧ ((∀ x ∈ cands, avgScoreSignal x = avgScoreSignal c) →
        normSignal avgScoreSignal cands c = 0)
    ∧ ((∀ x ∈ cands, commentsSignal x = commentsSignal c) →
        normSignal commentsSignal cands c = 0) :=
  ⟨normSignal_bounds _ _ _ hc, normSignal_bounds _ _ _ hc,
    normSignal_bounds _ _ _ hc,
    normSignal_const _ _ _ hc, normSignal_const _ _ _ hc,
    normSignal_const _ _ _ hc⟩

theorem normalization_division_safe_witness :
    candA ∈ [candB, candA]
    ∧ normSignal mentionsSignal [candB, candA] candA = 0 := by
  have hc : candA ∈ [candB, candA] :=
    List.mem_cons_of_mem _ (List.mem_singleton_self candA)
  refine ⟨hc, (normalization_division_safe [candB, candA] candA hc).2.2.2.1 ?_⟩
  intro x hx
  rcases List.mem_cons.1 hx with h | h
  · subst h; rfl
  · rw [List.mem_singleton] at h
    subst h; rfl

theorem candLE_trans (a b c : ScoredCandidate) (hab : candLE a b = true)
    (hbc : candLE b c = true) : candLE a c = true := by
  simp only [candLE, decide_eq_true_eq] at *
  exact le_trans hab hbc

theorem candLE_total (a b : ScoredCandidate) :
    (candLE a b || candLE b a) = true := by
  simp only [candLE, Bool.or_eq_true, decide_eq_true_eq]
  exact le_total _ _

theorem rankCandidates_sorted (l : List ScoredCandidate) :
    (rankCandidates l).Pairwise (fun a b => rankKey a ≤ rankKey b) := by
  have h := List.sorted_mergeSort
    (fun a b c => candLE_trans a b c) (fun a b => candLE_total a b) l
  exact h.imp fun hab => by simpa [candLE] using hab

theorem rankCandidates_perm (l : List ScoredCandidate) :
    (rankCandidates l).Perm l :=
  List.mergeSort_perm l candLE

theorem perm_map_nodup_eq {α β : Type _} (f : α → β) :
    ∀ (l₁ l₂ : List α), l₁.Perm l₂ → (l₂.map f).Nodup →
      l₁.map f = l₂.map f → l₁ = l₂ := by
  intro l₁
  induction l₁ with
  | nil =>
      intro l₂ hp _ _
      exact (hp.nil_eq).symm ▸ rfl
  | cons a t ih =>
      intro l₂ hp hnd hmap
      cases l₂ with
      | nil => exact absurd hp (by simp)
      | cons b t₂ =>
          simp only [List.map_cons, List.cons.injEq] at hmap
          have hab : a = b := by
            have hmem : a ∈ b :: t₂ := hp.mem_iff.1 (List.mem_cons_self a t)
            rcases List.mem_cons.1 hmem with h | h
            · exact h
            · exfalso
              have : f a ∈ t₂.map f := List.mem_map_of_mem f h
              rw [List.map_cons, ← hmap.1] at hnd
              exact (List.nodup_cons.1 hnd).1 this
          subst hab
          have hperm : t.Perm t₂ := hp.cons_inv
          have hnd2 : (t₂.map f).Nodup := by
            rw [List.map_cons] at hnd
            exact (List.nodup_cons.1 hnd).2
          rw [ih t₂ hperm hnd2 hmap.2]

theorem sorted_perm_unique {α β : Type _} [LinearOrder β] (f : α → β)
    (l₁ l₂ : List α) (hp : l₁.Perm l₂) (hnd : (l₂.map f).Nodup)
    (h₁ : l₁.Pairwise (fun a b => f a ≤ f b))
    (h₂ : l₂.Pairwise (fun a b => f a ≤ f b)) : l₁ = l₂ := by
  have hmap : l₁.map f = l₂.map f :=
    List.eq_of_perm_of_sorted (hp.map f)
      (List.pairwise_map.2 h₁) (List.pairwise_map.2 h₂)
  exact perm_map_nodup_eq f l₁ l₂ hp hnd hmap

theorem rankKey_nodup (l : List ScoredCandidate)
    (h : (l.map ScoredCandidate.channel_id).Nodup) : (l.map rankKey).Nodup := by
  have heq : l.map ScoredCandidate.channel_id
      = (l.map rankKey).map (fun k => String.mk (ofLex (ofLex k).2).2) := by
    rw [List.map_map]
    rfl
  rw [heq] at h
  exact h.of_map _

/-- C6: Discovery ordering is deterministic: repeated discover calls on the
same metrics give the same (thus identical) output; the output is sorted by
the ordering key — descending score, ties broken by higher raw comment
count then lexicographic channel id; ranking permutes the scored candidate
set; and, when channel ids are distinct, any sorted permutation of the
scored set equals the ranked output, so the order is the total order
determined by the input. -/
theorem discovery_deterministic (cfg : Config) (w : ScoringWeights)
    (cands : List Candidate) :
    discover cfg w cands = discover cfg w cands
    ∧ (discover cfg w cands).Pairwise (fun a b => rankKey a ≤ rankKey b)
    ∧ (rankCandidates (scoreCandidates w cands)).Perm (scoreCandidates w cands)
    ∧ ∀ l : List ScoredCandidate,
        l.Perm (scoreCandidates w cands) →
        l.Pairwise (fun a b => rankKey a ≤ rankKey b) →
        ((scoreCandidates w cands).map ScoredCandidate.channel_id).Nodup →
        l = rankCandidates (scoreCandidates w cands) := by
  refine ⟨rfl, ?_, rankCandidates_perm _, ?_⟩
  · exact List.Pairwise.sublist (List.take_sublist _ _) (rankCandidates_sorted _)
  · intro l hperm hsort hnd
    have hperm2 : l.Perm (rankCandidates (scoreCandidates w cands)) :=
      hperm.trans (rankCandidates_perm _).symm
    have hnd2 : ((rankCandidates (scoreCandidates w cands)).map rankKey).Nodup := by
      have hk := rankKey_nodup _ hnd
      exact (((rankCandidates_perm (scoreCandidates w cands)).map rankKey).nodup_iff).2 hk
    exact sorted_perm_unique rankKey l _ hperm2 hnd2 hsort (rankCandidates_sorted _)

theorem pair_constA (f : Candidate → ℚ) (hf : f candB = f candA) :
    ∀ x ∈ [candB, candA], f x = f candA := by
  intro x hx
  rcases List.mem_cons.1 hx with h | h
  · subst h; exact hf
  · rw [List.mem_singleton] at h
    subst h; rfl

theorem pair_constB (f : Candidate → ℚ) (hf : f candA = f candB) :
    ∀ x ∈ [candB, candA], f x = f candB := by
  intro x hx
  rcases List.mem_cons.1 hx with h | h
  · subst h; rfl
  · rw [List.mem_singleton] at h
    subst h; exact hf

theorem scoreA_eq : candidateScore sampleWeights [candB, candA] candA = 0 := by
  have hc : candA ∈ [candB, candA] :=
    List.mem_cons_of_mem _ (List.mem_singleton_self candA)
  have h1 : normSignal mentionsSignal [candB, candA] candA = 0 :=
    normSignal_const mentionsSignal _ _ hc (pair_constA mentionsSignal rfl)
  have h2 : normSignal avgScoreSignal [candB, candA] candA = 0 :=
    normSignal_const avgScoreSignal _ _ hc (pair_constA avgScoreSignal rfl)
  have h3 : normSignal commentsSignal [candB, candA] candA = 0 :=
    normSignal_const commentsSignal _ _ hc (pair_constA commentsSignal rfl)
  rw [candidateScore, h1, h2, h3]
  ring

theorem scoreB_eq : candidateScore sampleWeights [candB, candA] candB = 0 := by
  have hc : candB ∈ [candB, candA] := List.mem_cons_self _ _
  have h1 : normSignal mentionsSignal [candB, candA] candB = 0 :=
    normSignal_const mentionsSignal _ _ hc (pair_constB mentionsSignal rfl)
  have h2 : normSignal avgScoreSignal [candB, candA] candB = 0 :=
    normSignal_const avgScoreSignal _ _ hc (pair_constB avgScoreSignal rfl)
  have h3 : normSignal commentsSignal [candB, candA] candB = 0 :=
    normSignal_const commentsSignal _ _ hc (pair_constB commentsSignal rfl)
  rw [candidateScore, h1, h2, h3]
  ring

theorem scored_pair :
    scoreCandidates sampleWeights [candB, candA] = [scoredB, scoredA] := by
  unfold scoreCandidates
  simp only [List.map_cons, List.map_nil]
  rw [scoreA_eq, scoreB_eq]
  rfl

theorem discovery_deterministic_witness :
    [scoredA, scoredB]
      = rankCandidates (scoreCandidates sampleWeights [candB, candA]) := by
  apply (discovery_deterministic sampleConfig sampleWeights [candB, candA]).2.2.2
  · rw [scored_pair]
    exact List.Perm.swap scoredB scoredA []
  · refine List.pairwise_cons.2 ⟨?_, List.pairwise_singleton _ _⟩
    intro b hb
    rw [List.mem_singleton] at hb
    subst hb
    rw [rankKey, rankKey, Prod.Lex.le_iff]
    refine Or.inr ⟨rfl, ?_⟩
    rw [Prod.Lex.le_iff]
    exact Or.inr ⟨rfl, by decide⟩
  · rw [scored_pair]
    decide

theorem ingestList_store_length (valid : CommentRecord → Bool)
    (cs : List CommentRecord) (st : IngestState) :
    (ingestList valid st cs).store.length ≤ st.store.length + cs.length := by
  induction cs generalizing st with
  | nil => exact Nat.le_add_right _ 0
  | cons a t ih =>
      have hone : (ingestOne valid st a).store.length ≤ st.store.length + 1 := by
        unfold ingestOne
        split
        · exact Nat.le_succ _
        · split
          · simp
          · exact Nat.le_succ _
      have h2 := ih (ingestOne valid st a)
      simp only [ingestList, List.foldl_cons] at h2 ⊢
      calc (t.foldl (ingestOne valid) (ingestOne valid st a)).store.length
          ≤ (ingestOne valid st a).store.length + t.length := h2
        _ ≤ st.store.length + (a :: t).length := by
            simp only [List.length_cons]
            omega

/-- C4: Configured limits are hard caps: per channel at most
MAX_SUBMISSIONS_PER_PRODUCT submissions are fetched; per submission at most
MAX_COMMENTS_PER_SUBMISSION comments are fetched, and ingesting one
submission grows the store by at most that many records even if the source
returns more; and each discover result list has length at most
MAX_DISCOVERY_RESULTS. -/
theorem configured_limits_hard_caps (cfg : Config)
    (valid : CommentRecord → Bool) (ch : Channel) (sub : Submission)
    (st : IngestState) (w : ScoringWeights) (cands : List Candidate) :
    (fetchSubmissions cfg ch).length ≤ cfg.max_submissions_per_product
    ∧ (submissionComments cfg sub).length ≤ cfg.max_comments_per_submission
    ∧ (ingestSubmission cfg valid st sub).store.length
        ≤ st.store.length + cfg.max_comments_per_submission
    ∧ (discover cfg w cands).length ≤ cfg.max_discovery_results := by
  refine ⟨?_, ?_, ?_, ?_⟩
  · rw [fetchSubmissions, List.length_take]
    exact min_le_left _ _
  · rw [submissionComments, List.length_take]
    exact min_le_left _ _
  · have h := ingestList_store_length valid (submissionComments cfg sub) st
    have h2 : (submissionComments cfg sub).length
        ≤ cfg.max_comments_per_submission := by
      rw [submissionComments, List.length_take]
      exact min_le_left _ _
    unfold ingestSubmission
    omega
  · rw [discover, List.length_take]
    exact min_le_left _ _

/-- C5: On an empty Semantic Index every search returns no results (and no
error: it is total), and ask returns the no-data answer with sources = 0;
the generation capability is never consulted — the response is the same
for every generation backend. -/
theorem empty_index_no_data (sim : List ℚ → List ℚ → ℚ)
    (embed : String → List ℚ) (gen gen' : String → List CommentRecord → String)
    (query question : String) (limit : Nat) :
    searchIndex sim embed [] query limit = []
    ∧ ask sim embed gen [] question limit = ⟨noDataAnswer, [], 0⟩
    ∧ (ask sim embed gen [] question limit).sources = 0
    ∧ ask sim embed gen [] question limit = ask sim embed gen' [] question limit := by
  have hs : ∀ (q : String) (l : Nat), searchIndex sim embed [] q l = [] := by
    intro q l
    simp [searchIndex]
  refine ⟨hs query limit, ?_, ?_, ?_⟩
  · simp [ask, hs]
  · simp [ask, hs]
  · simp [ask, hs]

/-- C9: The product list sent by handleDiscover and handleIngest is the
comma-split of the input with entries trimmed and empty entries removed:
every sent name is non-empty, and the sent names are a subsequence of the
trimmed comma-split, hence preserve their order of appearance. -/
theorem product_list_wellformed (input : List Char) :
    (∀ p ∈ productListOf input, 0 < p.length)
    ∧ (productListOf input).Sublist ((splitChars ',' input).map trimChars) := by
  constructor
  · intro p hp
    have h := List.of_mem_filter hp
    simpa using h
  · exact List.filter_sublist _

theorem product_list_wellformed_witness :
    (['i', 'P', 'h', 'o', 'n', 'e']
        ∈ productListOf (" iPhone, Samsung Galaxy ,,  ".data))
    ∧ 0 < (['i', 'P', 'h', 'o', 'n', 'e'] : List Char).length :=
  ⟨by decide,
    (product_list_wellformed (" iPhone, Samsung Galaxy ,,  ".data)).1 _ (by decide)⟩

theorem jsRound_nonneg (q : ℚ) (h : 0 ≤ q) : 0 ≤ jsRound q := by
  unfold jsRound
  rw [Int.le_floor]
  push_cast
  linarith

/-- C10: In the daily time series, every bucket with a positive total has
positivePercent and negativePercent equal to the independently rounded
shares and neutralPercent equal to max 0 (100 - positivePercent -
negativePercent); all three percent fields are non-negative, and they sum
to exactly 100 whenever positivePercent + negativePercent is at most 100;
a bucket with total zero has all six count and percent fields zero. -/
theorem time_series_percentages (date : String) (pos neg neu : Nat) :
    (0 < pos + neg + neu →
      (timeSeriesPoint date pos neg neu).positivePercent
          = jsRound ((pos : ℚ) / ((pos + neg + neu : Nat) : ℚ) * 100)
      ∧ (timeSeriesPoint date pos neg neu).negativePercent
          = jsRound ((neg : ℚ) / ((pos + neg + neu : Nat) : ℚ) * 100)
      ∧ (timeSeriesPoint date pos neg neu).neutralPercent
          = max 0 (100 - (timeSeriesPoint date pos neg neu).positivePercent
              - (timeSeriesPoint date pos neg neu).negativePercent)
      ∧ 0 ≤ (timeSeriesPoint date pos neg neu).positivePercent
      ∧ 0 ≤ (timeSeriesPoint date pos neg neu).negativePercent
      ∧ 0 ≤ (timeSeriesPoint date pos neg neu).neutralPercent
      ∧ ((timeSeriesPoint date pos neg neu).positivePercent
            + (timeSeriesPoint date pos neg neu).negativePercent ≤ 100 →
          (timeSeriesPoint date pos neg neu).positivePercent
            + (timeSeriesPoint date pos neg neu).negativePercent
            + (timeSeriesPoint date pos neg neu).neutralPercent = 100))
    ∧ (pos + neg + neu = 0 →
        timeSeriesPoint date pos neg neu = ⟨date, 0, 0, 0, 0, 0, 0⟩) := by
  constructor
  · intro h
    have hne : ¬ pos + neg + neu = 0 := by omega
    have htotal : (0 : ℚ) ≤ ((pos + neg + neu : Nat) : ℚ) := by positivity
    have hposq : (0 : ℚ) ≤ (pos : ℚ) / ((pos + neg + neu : Nat) : ℚ) * 100 := by
      positivity
    have hnegq : (0 : ℚ) ≤ (neg : ℚ) / ((pos + neg + neu : Nat) : ℚ) * 100 := by
      positivity
    unfold timeSeriesPoint
    rw [if_neg hne]
    dsimp only
    refine ⟨rfl, rfl, rfl, jsRound_nonneg _ hposq, jsRound_nonneg _ hnegq,
      le_max_left _ _, ?_⟩
    intro hsum
    omega
  · intro h
    simp only [timeSeriesPoint, if_pos h]

theorem time_series_percentages_witness :
    (timeSeriesPoint "2024-01-01" 2 1 1).positivePercent
        = jsRound ((2 : ℚ) / ((2 + 1 + 1 : Nat) : ℚ) * 100)
    ∧ (timeSeriesPoint "2024-01-01" 2 1 1).negativePercent
        = jsRound ((1 : ℚ) / ((2 + 1 + 1 : Nat) : ℚ) * 100)
    ∧ (timeSeriesPoint "2024-01-01" 2 1 1).neutralPercent
        = max 0 (100 - (timeSeriesPoint "2024-01-01" 2 1 1).positivePercent
            - (timeSeriesPoint "2024-01-01" 2 1 1).negativePercent)
    ∧ 0 ≤ (timeSeriesPoint "2024-01-01" 2 1 1).positivePercent
    ∧ 0 ≤ (timeSeriesPoint "2024-01-01" 2 1 1).negativePercent
    ∧ 0 ≤ (timeSeriesPoint "2024-01-01" 2 1 1).neutralPercent
    ∧ ((timeSeriesPoint "2024-01-01" 2 1 1).positivePercent
          + (timeSeriesPoint "2024-01-01" 2 1 1).negativePercent ≤ 100 →
        (timeSeriesPoint "2024-01-01" 2 1 1).positivePercent
          + (timeSeriesPoint "2024-01-01" 2 1 1).negativePercent
          + (timeSeriesPoint "2024-01-01" 2 1 1).neutralPercent = 100) :=
  (time_series_percentages "2024-01-01" 2 1 1).1 (by omega)

end SentimentCore

